import Mathlib

/-!
Verification of the NSGA-II core (`nsga_2/algo.py`).

The Python module is shallowly embedded here.  Objective matrices and
decision vectors over numpy floats are modelled over `ℚ` (for the exact,
executable parts: dominance, non-dominated sorting, front flattening,
tournament selection) and over `ℝ` (for the variation operators, whose
definitions use real powers `x ** (1/(eta+1))`).  Where IEEE-754 special
values matter (the crowding-distance computation can produce `inf` and
`0/0 = nan`), results live in an explicit float model `NFloat` carrying
`nan`, `inf`, `-inf` and finite values.  Randomness is embedded as oracle
parameters: each `np.random.*` draw becomes an explicit argument, and
theorems quantify over (or exhibit) outcomes of those draws.
-/

namespace NSGA2

/-! ## Dominance comparator

`pareto_dominance(i1, i2) = np.all(i1 <= i2) and np.any(i1 < i2)` over two
equal-length objective vectors, modelled as functions `Fin M → ℚ`.
`np.all` / `np.any` over the elementwise comparison arrays become
`List.all` / `List.any` over all coordinates. -/

def pareto_dominance {M : ℕ} (i1 i2 : Fin M → ℚ) : Bool :=
  ((List.finRange M).all fun k => decide (i1 k ≤ i2 k)) &&
  ((List.finRange M).any fun k => decide (i1 k < i2 k))

lemma pareto_dominance_iff {M : ℕ} (i1 i2 : Fin M → ℚ) :
    pareto_dominance i1 i2 = true ↔ (∀ k, i1 k ≤ i2 k) ∧ (∃ k, i1 k < i2 k) := by
  simp [pareto_dominance, List.all_eq_true, List.any_eq_true]

lemma pareto_dominance_irrefl {M : ℕ} (v : Fin M → ℚ) :
    ¬ pareto_dominance v v = true := by
  rw [pareto_dominance_iff]
  rintro ⟨-, k, hk⟩
  exact lt_irrefl _ hk

lemma pareto_dominance_asymm {M : ℕ} (i1 i2 : Fin M → ℚ)
    (h12 : pareto_dominance i1 i2 = true) : ¬ pareto_dominance i2 i1 = true := by
  rw [pareto_dominance_iff] at h12 ⊢
  rintro ⟨hle, -⟩
  obtain ⟨-, k, hk⟩ := h12
  exact absurd (hle k) (not_le.mpr hk)

lemma pareto_dominance_trans {M : ℕ} (a b c : Fin M → ℚ)
    (hab : pareto_dominance a b = true) (hbc : pareto_dominance b c = true) :
    pareto_dominance a c = true := by
  rw [pareto_dominance_iff] at hab hbc ⊢
  obtain ⟨hab_le, k, hk⟩ := hab
  obtain ⟨hbc_le, -⟩ := hbc
  exact ⟨fun j => le_trans (hab_le j) (hbc_le j), k, lt_of_lt_of_le hk (hbc_le k)⟩

/-- C3: `pareto_dominance` returns true iff `i1` is no worse in every objective
and strictly better in at least one; it is irreflexive (false on a vector and
itself, and false both ways for elementwise-equal vectors) and asymmetric. -/
theorem pareto_dominance_correct {M : ℕ} (i1 i2 : Fin M → ℚ) :
    (pareto_dominance i1 i2 = true ↔ (∀ k, i1 k ≤ i2 k) ∧ (∃ k, i1 k < i2 k)) ∧
    (¬ pareto_dominance i1 i1 = true) ∧
    (i1 = i2 → ¬ pareto_dominance i1 i2 = true ∧ ¬ pareto_dominance i2 i1 = true) ∧
    (¬ (pareto_dominance i1 i2 = true ∧ pareto_dominance i2 i1 = true)) := by
  refine ⟨pareto_dominance_iff i1 i2, pareto_dominance_irrefl i1, ?_, ?_⟩
  · rintro rfl
    exact ⟨pareto_dominance_irrefl i1, pareto_dominance_irrefl i1⟩
  · rintro ⟨h12, h21⟩
    exact pareto_dominance_asymm i1 i2 h12 h21

/-- Witness for C3 at a concrete pair of objective vectors. -/
theorem pareto_dominance_correct_witness :
    (pareto_dominance (M := 2) ![1, 2] ![1, 3] = true ↔
      ((∀ k, (![1, 2] : Fin 2 → ℚ) k ≤ ![1, 3] k) ∧
        (∃ k, (![1, 2] : Fin 2 → ℚ) k < ![1, 3] k))) ∧
    (¬ pareto_dominance (M := 2) ![1, 2] ![1, 2] = true) ∧
    ((![1, 2] : Fin 2 → ℚ) = ![1, 3] →
      ¬ pareto_dominance (M := 2) ![1, 2] ![1, 3] = true ∧
      ¬ pareto_dominance (M := 2) ![1, 3] ![1, 2] = true) ∧
    (¬ (pareto_dominance (M := 2) ![1, 2] ![1, 3] = true ∧
        pareto_dominance (M := 2) ![1, 3] ![1, 2] = true)) :=
  pareto_dominance_correct ![1, 2] ![1, 3]

/-! ## Front flattening

`flatten_fronts(p_obj, fronts)` starts from `np.zeros(N)` and, iterating the
`fronts` dictionary in its iteration order, assigns the front number to the
positions of all its members.  A Python `dict[int, set[int]]` together with
its iteration order is modelled as an association list
`List (ℕ × Finset ℕ)`; the numpy float result array is `Fin n → ℚ`. -/

def flatten_fronts (n : ℕ) (fronts : List (ℕ × Finset ℕ)) : Fin n → ℚ :=
  fronts.foldl
    (fun f e => fun i => if (i : ℕ) ∈ e.2 then (e.1 : ℚ) else f i)
    (fun _ => 0)

lemma flatten_foldl_not_mem {n : ℕ} (t : List (ℕ × Finset ℕ)) (g : Fin n → ℚ)
    (i : Fin n) (h : ∀ e ∈ t, (i : ℕ) ∉ e.2) :
    t.foldl (fun f e => fun j : Fin n => if (j : ℕ) ∈ e.2 then (e.1 : ℚ) else f j) g i
      = g i := by
  induction t generalizing g with
  | nil => rfl
  | cons e t ih =>
    rw [List.foldl_cons, ih _ (fun e' he' => h e' (List.mem_cons_of_mem e he'))]
    simp [h e (List.mem_cons_self e t)]

lemma flatten_foldl_rank {n : ℕ} (fronts : List (ℕ × Finset ℕ)) (g : Fin n → ℚ)
    (i : Fin n) (k : ℕ)
    (hex : ∃ s, (k, s) ∈ fronts ∧ (i : ℕ) ∈ s)
    (huniq : ∀ kk ss, (kk, ss) ∈ fronts → (i : ℕ) ∈ ss → kk = k) :
    fronts.foldl (fun f e => fun j : Fin n => if (j : ℕ) ∈ e.2 then (e.1 : ℚ) else f j) g i
      = (k : ℚ) := by
  induction fronts generalizing g with
  | nil => simp at hex
  | cons e t ih =>
    rw [List.foldl_cons]
    by_cases ht : ∃ s, (k, s) ∈ t ∧ (i : ℕ) ∈ s
    · exact ih _ ht (fun kk ss hss hm => huniq kk ss (List.mem_cons_of_mem e hss) hm)
    · obtain ⟨s, hs, hmem⟩ := hex
      rcases List.mem_cons.mp hs with he | hts
      · have hnt : ∀ e' ∈ t, (i : ℕ) ∉ e'.2 := by
          intro e' he' hmem'
          have hk : e'.1 = k := huniq e'.1 e'.2 (List.mem_cons_of_mem e he') hmem'
          exact ht ⟨e'.2, by rw [← hk]; exact he', hmem'⟩
        rw [flatten_foldl_not_mem t _ i hnt, ← he]
        simp [hmem, ← he]
      · exact absurd ⟨s, hts, hmem⟩ ht

lemma flatten_fronts_rank {n : ℕ} (fronts : List (ℕ × Finset ℕ)) (i : Fin n) (k : ℕ)
    (hex : ∃ s, (k, s) ∈ fronts ∧ (i : ℕ) ∈ s)
    (huniq : ∀ kk ss, (kk, ss) ∈ fronts → (i : ℕ) ∈ ss → kk = k) :
    flatten_fronts n fronts i = (k : ℚ) :=
  flatten_foldl_rank fronts _ i k hex huniq

/-- In a family of pairwise disjoint member sets, all entries containing an
index agree with the key of any entry containing it. -/
lemma rank_unique_of_disjoint {fronts : List (ℕ × Finset ℕ)}
    (hdisj : fronts.Pairwise (fun e e' => e.2 ∩ e'.2 = ∅))
    {k : ℕ} {s : Finset ℕ} (hks : (k, s) ∈ fronts) {i : ℕ} (hi : i ∈ s) :
    ∀ kk ss, (kk, ss) ∈ fronts → i ∈ ss → kk = k := by
  intro kk ss hss hm
  by_cases heq : (kk, ss) = (k, s)
  · exact (Prod.mk.injEq kk ss k s ▸ heq).1
  · have hsymm : Symmetric (fun e e' : ℕ × Finset ℕ => e.2 ∩ e'.2 = ∅) := by
      intro e e' h
      rwa [Finset.inter_comm]
    have := List.Pairwise.forall hsymm hdisj hss hks heq
    exact absurd (Finset.mem_inter.mpr ⟨hm, hi⟩) (by rw [this]; exact Finset.not_mem_empty i)

/-- C9: the output of `flatten_fronts` depends only on the front-to-member-set
mapping, not on dictionary iteration order: for any two fronts dictionaries
that are equal as mappings (permutations of each other as key/set association
lists) and whose member sets partition the row indices, the outputs agree;
concretely, on 4 rows the fronts 1 ↦ (0,1), 2 ↦ (2), 3 ↦ (3) yield
the array (1,1,2,3) and the fronts 2 ↦ (1,2), 1 ↦ (0), 3 ↦ (3) yield
(1,2,2,3) in either iteration order. -/
theorem flatten_fronts_order_independent :
    (∀ (n : ℕ) (fronts fronts' : List (ℕ × Finset ℕ)),
      fronts.Perm fronts' →
      fronts.Pairwise (fun e e' => e.2 ∩ e'.2 = ∅) →
      (∀ j : Fin n, ∃ e ∈ fronts, (j : ℕ) ∈ e.2) →
      flatten_fronts n fronts = flatten_fronts n fronts') ∧
    flatten_fronts 4 [(1, {0, 1}), (2, {2}), (3, {3})] = ![1, 1, 2, 3] ∧
    flatten_fronts 4 [(2, {1, 2}), (1, {0}), (3, {3})] = ![1, 2, 2, 3] ∧
    flatten_fronts 4 [(1, {0}), (3, {3}), (2, {1, 2})] = ![1, 2, 2, 3] := by
  refine ⟨?_, by decide, by decide, by decide⟩
  intro n fronts fronts' hperm hdisj hcover
  have hsymm : Symmetric (fun e e' : ℕ × Finset ℕ => e.2 ∩ e'.2 = ∅) := by
    intro e e' h
    rwa [Finset.inter_comm]
  have hdisj' : fronts'.Pairwise (fun e e' => e.2 ∩ e'.2 = ∅) :=
    (hperm.pairwise_iff (fun h => hsymm h)).mp hdisj
  funext i
  obtain ⟨e, he, hie⟩ := hcover i
  have h1 : flatten_fronts n fronts i = (e.1 : ℚ) :=
    flatten_fronts_rank fronts i e.1 ⟨e.2, by simpa using he, hie⟩
      (rank_unique_of_disjoint hdisj (by simpa using he) hie)
  have h2 : flatten_fronts n fronts' i = (e.1 : ℚ) :=
    flatten_fronts_rank fronts' i e.1 ⟨e.2, by simpa using hperm.mem_iff.mp he, hie⟩
      (rank_unique_of_disjoint hdisj' (by simpa using hperm.mem_iff.mp he) hie)
  rw [h1, h2]

/-- Witness for C9: the permutation-invariance part applied to the two
iteration orders of the second concrete dictionary of the claim. -/
theorem flatten_fronts_order_independent_witness :
    flatten_fronts 4 [(2, {1, 2}), (1, {0}), (3, {3})]
      = flatten_fronts 4 [(1, {0}), (3, {3}), (2, {1, 2})] :=
  flatten_fronts_order_independent.1 4 _ _
    (by decide) (by decide) (by decide)

/-! ## Tournament selection

`tournament_select` flattens the fronts dictionary, draws two distinct
individual indices (`np.random.choice(N, 2, replace=False)`, embedded as the
oracle arguments `a b : Fin n` with `a ≠ b`), and picks the winner with
`np.lexsort((-selected_cd, selected_front))[0]`: primary key front rank
ascending, secondary key crowding distance descending, stable for full ties
(so the first drawn index wins a full tie). -/

def tournament_select (n : ℕ) (fronts : List (ℕ × Finset ℕ))
    (crowding_distances : Fin n → ℚ) (a b : Fin n) : Fin n :=
  let f := flatten_fronts n fronts
  if f b < f a ∨ (f b = f a ∧ -(crowding_distances b) < -(crowding_distances a))
  then b else a

/-- Rank of individual `i` in a fronts dictionary: some entry with key `k`
contains `i`, and every entry containing `i` has key `k`. -/
def RankOf (fronts : List (ℕ × Finset ℕ)) (i k : ℕ) : Prop :=
  (∃ s, (k, s) ∈ fronts ∧ i ∈ s) ∧ ∀ kk ss, (kk, ss) ∈ fronts → i ∈ ss → kk = k

/-- C5: `tournament_select` returns one of the two drawn indices; the winner
is the one with the lower front rank regardless of crowding distance, and on
equal front ranks the one with the higher crowding distance. -/
theorem tournament_select_correct (n : ℕ) (fronts : List (ℕ × Finset ℕ))
    (cd : Fin n → ℚ) (a b : Fin n) (hab : a ≠ b) (ka kb : ℕ)
    (hra : RankOf fronts (a : ℕ) ka) (hrb : RankOf fronts (b : ℕ) kb) :
    (tournament_select n fronts cd a b = a ∨ tournament_select n fronts cd a b = b) ∧
    (ka < kb → tournament_select n fronts cd a b = a) ∧
    (kb < ka → tournament_select n fronts cd a b = b) ∧
    (ka = kb → cd b < cd a → tournament_select n fronts cd a b = a) ∧
    (ka = kb → cd a < cd b → tournament_select n fronts cd a b = b) := by
  have hfa : flatten_fronts n fronts a = (ka : ℚ) :=
    flatten_fronts_rank fronts a ka hra.1 hra.2
  have hfb : flatten_fronts n fronts b = (kb : ℚ) :=
    flatten_fronts_rank fronts b kb hrb.1 hrb.2
  simp only [tournament_select, hfa, hfb, neg_lt_neg_iff]
  refine ⟨?_, ?_, ?_, ?_, ?_⟩
  · split_ifs with h
    · exact Or.inr rfl
    · exact Or.inl rfl
  · intro hlt
    split_ifs with h
    · rcases h with h | ⟨h, -⟩
      · exact absurd (Nat.cast_lt.mp h) (lt_asymm hlt)
      · exact absurd (Nat.cast_inj.mp h) (Nat.ne_of_lt hlt).symm
    · rfl
  · intro hlt
    split_ifs with h
    · rfl
    · exact absurd (Or.inl (Nat.cast_lt.mpr hlt)) h
  · intro hk hcd
    split_ifs with h
    · rcases h with h | ⟨-, h⟩
      · exact absurd (Nat.cast_lt.mp h) (by omega)
      · exact absurd h (lt_asymm hcd)
    · rfl
  · intro hk hcd
    split_ifs with h
    · rfl
    · exact absurd (Or.inr ⟨by rw [hk], hcd⟩) h

/-- Witness for C5: population of 2, individual 0 in front 1 with crowding 5,
individual 1 in front 2 with crowding 7; the lower-ranked individual 0 wins
despite its lower crowding distance. -/
theorem tournament_select_correct_witness :
    tournament_select 2 [(1, {0}), (2, {1})] ![5, 7] 0 1 = 0 := by
  have hra : RankOf [(1, ({0} : Finset ℕ)), (2, {1})] 0 1 := by
    refine ⟨⟨{0}, by simp, by decide⟩, ?_⟩
    intro kk ss h hm
    rcases List.mem_cons.mp h with h1 | h1
    · simp only [Prod.mk.injEq] at h1
      exact h1.1
    · simp only [List.mem_singleton, Prod.mk.injEq] at h1
      rw [h1.2] at hm
      exact absurd hm (by decide)
  have hrb : RankOf [(1, ({0} : Finset ℕ)), (2, {1})] 1 2 := by
    refine ⟨⟨{1}, by simp, by decide⟩, ?_⟩
    intro kk ss h hm
    rcases List.mem_cons.mp h with h1 | h1
    · simp only [Prod.mk.injEq] at h1
      rw [h1.2] at hm
      exact absurd hm (by decide)
    · simp only [List.mem_singleton, Prod.mk.injEq] at h1
      exact h1.1
  exact (tournament_select_correct 2 [(1, {0}), (2, {1})] ![5, 7] 0 1
    (by decide) 1 2 hra hrb).2.1 (by decide)

/-! ## Crowding distance

`calculate_crowding_distance` works on numpy float arrays and can hit IEEE
special values: the boundary assignment writes `np.inf`, and the increment
`(m_values[next] - m_values[prev]) / m_range` is a float division that yields
`0.0/0.0 = nan` (or `±inf`) when `m_range == 0`.  Finite objective values are
modelled as `ℚ` and the distance array as `NFloat`, an explicit model of the
float values reachable here (finite, `+inf`, `-inf`, `nan`). -/

inductive NFloat : Type
  | nan : NFloat
  | inf : NFloat
  | ninf : NFloat
  | fin : ℚ → NFloat
deriving DecidableEq

/-- IEEE-754 addition restricted to the values of `NFloat`. -/
def NFloat.add : NFloat → NFloat → NFloat
  | nan, _ => nan
  | _, nan => nan
  | inf, ninf => nan
  | ninf, inf => nan
  | inf, _ => inf
  | _, inf => inf
  | ninf, _ => ninf
  | _, ninf => ninf
  | fin a, fin b => fin (a + b)

/-- IEEE-754 division of two finite values: `a / 0` is `nan` for `a = 0` and
`±inf` otherwise. -/
def np_div_fin (a b : ℚ) : NFloat :=
  if b ≠ 0 then .fin (a / b) else if 0 < a then .inf else if a < 0 then .ninf else .nan

/-- `np.argsort(m_values)` as the list of indices stably sorted by value
(numpy's introsort degrades to a stable insertion sort on the small arrays
relevant here; ties keep index order). -/
def np_argsort {N : ℕ} (v : Fin N → ℚ) : List (Fin N) :=
  (List.finRange N).insertionSort (fun i j => v i ≤ v j)

/-- Sliding windows of width 3: the middle components enumerate exactly the
interior positions of the list. -/
def listTriples {α : Type} : List α → List (α × α × α)
  | a :: b :: c :: t => (a, b, c) :: listTriples (b :: c :: t)
  | _ => []

/-- One pass of the `for m in range(p_obj.shape[1])` loop of
`calculate_crowding_distance` for a single objective column `v`, updating the
running distance array `d`: set the two boundary entries of the stably sorted
index order to `inf`, then add the normalized neighbour gap to every interior
entry.  `m_range` is `m_values.max() - m_values.min()`, read off the sorted
order.  (For `N = 0` numpy raises on `max()`; the model returns `d` unchanged,
a case never exercised below.) -/
def crowd_col {N : ℕ} (v : Fin N → ℚ) (d : Fin N → NFloat) : Fin N → NFloat :=
  match np_argsort v with
  | [] => d
  | first :: rest =>
    let last := (first :: rest).getLast (List.cons_ne_nil _ _)
    let m_range : ℚ := v last - v first
    let d2 := Function.update (Function.update d first NFloat.inf) last NFloat.inf
    (listTriples (first :: rest)).foldl
      (fun dd t =>
        Function.update dd t.2.1
          (NFloat.add (dd t.2.1) (np_div_fin (v t.2.2 - v t.1) m_range)))
      d2

/-- `calculate_crowding_distance(p_obj)`: start from `np.zeros(N)` and fold
the per-objective pass over the columns in order. -/
def calculate_crowding_distance {N M : ℕ} (p_obj : Fin N → Fin M → ℚ) :
    Fin N → NFloat :=
  (List.finRange M).foldl (fun d m => crowd_col (fun i => p_obj i m) d)
    (fun _ => NFloat.fin 0)

lemma crowd_col_cons {N : ℕ} (v : Fin N → ℚ) (d : Fin N → NFloat)
    (first : Fin N) (rest : List (Fin N)) (h : np_argsort v = first :: rest) :
    crowd_col v d = (listTriples (first :: rest)).foldl
      (fun dd t => Function.update dd t.2.1
        (NFloat.add (dd t.2.1)
          (np_div_fin (v t.2.2 - v t.1)
            (v ((first :: rest).getLast (List.cons_ne_nil _ _)) - v first))))
      (Function.update (Function.update d first NFloat.inf)
        ((first :: rest).getLast (List.cons_ne_nil _ _)) NFloat.inf) := by
  unfold crowd_col
  rw [h]

lemma np_argsort_perm {N : ℕ} (v : Fin N → ℚ) : (np_argsort v).Perm (List.finRange N) :=
  List.perm_insertionSort _ _

lemma np_argsort_mem {N : ℕ} (v : Fin N → ℚ) (i : Fin N) : i ∈ np_argsort v :=
  ((np_argsort_perm v).mem_iff).mpr (List.mem_finRange i)

lemma np_argsort_nodup {N : ℕ} (v : Fin N → ℚ) : (np_argsort v).Nodup :=
  ((np_argsort_perm v).nodup_iff).mpr (List.nodup_finRange N)

lemma np_argsort_length {N : ℕ} (v : Fin N → ℚ) : (np_argsort v).length = N := by
  rw [np_argsort, List.length_insertionSort, List.length_finRange]

lemma np_argsort_sorted {N : ℕ} (v : Fin N → ℚ) :
    (np_argsort v).Sorted (fun i j => v i ≤ v j) := by
  haveI : IsTotal (Fin N) (fun i j => v i ≤ v j) := ⟨fun a b => le_total (v a) (v b)⟩
  haveI : IsTrans (Fin N) (fun i j => v i ≤ v j) :=
    ⟨fun _ _ _ hab hbc => le_trans hab hbc⟩
  exact List.sorted_insertionSort _ _

lemma np_argsort_cons {N : ℕ} (v : Fin N → ℚ) (hN : 1 ≤ N) :
    ∃ first rest, np_argsort v = first :: rest := by
  cases h : np_argsort v with
  | nil =>
    have hl := np_argsort_length v
    rw [h] at hl
    simp at hl
    omega
  | cons a t => exact ⟨a, t, rfl⟩

lemma sorted_head_le {N : ℕ} {v : Fin N → ℚ} {first : Fin N} {rest : List (Fin N)}
    (h : (first :: rest).Sorted (fun i j => v i ≤ v j)) :
    ∀ x ∈ first :: rest, v first ≤ v x := by
  intro x hx
  rcases List.mem_cons.mp hx with rfl | hx
  · exact le_refl _
  · exact List.rel_of_sorted_cons h x hx

lemma sorted_le_getLast {N : ℕ} {v : Fin N → ℚ} :
    ∀ {l : List (Fin N)}, l.Sorted (fun i j => v i ≤ v j) → ∀ (hne : l ≠ []),
      ∀ x ∈ l, v x ≤ v (l.getLast hne)
  | [], _, hne => absurd rfl hne
  | [a], _, _ => by
    intro x hx
    rcases List.mem_cons.mp hx with rfl | hx
    · exact le_refl _
    · simp at hx
  | a :: b :: t, hl, _ => by
    intro x hx
    rw [List.getLast_cons (List.cons_ne_nil b t)]
    rcases List.mem_cons.mp hx with rfl | hx
    · exact List.rel_of_sorted_cons hl _ (List.getLast_mem (List.cons_ne_nil b t))
    · exact sorted_le_getLast hl.of_cons (List.cons_ne_nil b t) x hx

lemma listTriples_nil {α : Type} : listTriples ([] : List α) = [] := rfl

lemma listTriples_single {α : Type} (a : α) : listTriples [a] = [] := rfl

lemma listTriples_pair {α : Type} (a b : α) : listTriples [a, b] = [] := rfl

lemma listTriples_cons3 {α : Type} (a b c : α) (t : List α) :
    listTriples (a :: b :: c :: t) = (a, b, c) :: listTriples (b :: c :: t) := rfl

lemma mem_listTriples {α : Type} :
    ∀ (l : List α) (t : α × α × α), t ∈ listTriples l →
      ∃ k : ℕ, l[k]? = some t.1 ∧ l[k + 1]? = some t.2.1 ∧ l[k + 2]? = some t.2.2
  | [], t, ht => absurd ht (by simp [listTriples_nil])
  | [a], t, ht => absurd ht (by simp [listTriples_single])
  | [a, b], t, ht => absurd ht (by simp [listTriples_pair])
  | a :: b :: c :: tl, t, ht => by
    rw [listTriples_cons3] at ht
    rcases List.mem_cons.mp ht with rfl | ht
    · exact ⟨0, by simp, by simp, by simp⟩
    · obtain ⟨k, h1, h2, h3⟩ := mem_listTriples (b :: c :: tl) t ht
      exact ⟨k + 1, by simpa using h1, by simpa using h2, by simpa using h3⟩

lemma listTriples_middle_ne {α : Type} (l : List α) (hnd : l.Nodup) (hne : l ≠ [])
    (t : α × α × α) (ht : t ∈ listTriples l) :
    t.2.1 ≠ l.head hne ∧ t.2.1 ≠ l.getLast hne := by
  obtain ⟨k, h1, h2, h3⟩ := mem_listTriples l t ht
  obtain ⟨hk1, he2⟩ := List.getElem?_eq_some.mp h2
  obtain ⟨hk2, -⟩ := List.getElem?_eq_some.mp h3
  constructor
  · intro hc
    have h0 : getElem l (k + 1) hk1 = getElem l 0 (List.length_pos.mpr hne) := by
      rw [he2, hc, List.head_eq_getElem_zero hne]
    have : k + 1 = 0 := hnd.getElem_inj_iff.mp h0
    omega
  · intro hc
    have hlen : l.length - 1 < l.length :=
      Nat.sub_lt (List.length_pos.mpr hne) one_pos
    have h0 : getElem l (k + 1) hk1 = getElem l (l.length - 1) hlen := by
      rw [he2, hc, List.getLast_eq_getElem l hne]
    have : k + 1 = l.length - 1 := hnd.getElem_inj_iff.mp h0
    omega

lemma foldl_triples_ne {N : ℕ} (v : Fin N → ℚ) (r : ℚ) (i : Fin N) :
    ∀ (l : List (Fin N × Fin N × Fin N)) (dd : Fin N → NFloat),
      (∀ t ∈ l, t.2.1 ≠ i) →
      l.foldl (fun dd t => Function.update dd t.2.1
        (NFloat.add (dd t.2.1) (np_div_fin (v t.2.2 - v t.1) r))) dd i = dd i := by
  intro l
  induction l with
  | nil => intro dd _; rfl
  | cons t ts ih =>
    intro dd h
    rw [List.foldl_cons, ih _ (fun u hu => h u (List.mem_cons_of_mem t hu))]
    exact Function.update_noteq (Ne.symm (h t (List.mem_cons_self t ts))) _ _

lemma foldl_triples_inf {N : ℕ} (v : Fin N → ℚ) (r : ℚ) (hr : r ≠ 0) (i : Fin N) :
    ∀ (l : List (Fin N × Fin N × Fin N)) (dd : Fin N → NFloat), dd i = NFloat.inf →
      l.foldl (fun dd t => Function.update dd t.2.1
        (NFloat.add (dd t.2.1) (np_div_fin (v t.2.2 - v t.1) r))) dd i
        = NFloat.inf := by
  intro l
  induction l with
  | nil => intro dd hd; exact hd
  | cons t ts ih =>
    intro dd hd
    rw [List.foldl_cons]
    apply ih
    by_cases hti : t.2.1 = i
    · rw [hti, Function.update_same, hd, np_div_fin, if_pos hr]
      rfl
    · rw [Function.update_noteq (Ne.symm hti)]
      exact hd

lemma crowd_col_force {N : ℕ} (v : Fin N → ℚ) (d : Fin N → NFloat) (i first : Fin N)
    (rest : List (Fin N)) (h : np_argsort v = first :: rest)
    (hi : i = first ∨ i = (first :: rest).getLast (List.cons_ne_nil _ _)) :
    crowd_col v d i = NFloat.inf := by
  rw [crowd_col_cons v d first rest h]
  have hnd : (first :: rest).Nodup := by
    have := np_argsort_nodup v
    rwa [h] at this
  rw [foldl_triples_ne]
  · rcases hi with hif | hil
    · by_cases hfl : i = (first :: rest).getLast (List.cons_ne_nil _ _)
      · rw [hfl, Function.update_same]
      · rw [Function.update_noteq hfl, hif, Function.update_same]
    · rw [hil, Function.update_same]
  · intro t ht
    have hm := listTriples_middle_ne (first :: rest) hnd (List.cons_ne_nil _ _) t ht
    rcases hi with hif | hil
    · rw [hif]
      exact hm.1
    · rw [hil]
      exact hm.2

lemma crowd_col_pres {N : ℕ} (v : Fin N → ℚ) (d : Fin N → NFloat) (i first : Fin N)
    (rest : List (Fin N)) (h : np_argsort v = first :: rest)
    (hr : v ((first :: rest).getLast (List.cons_ne_nil _ _)) - v first ≠ 0)
    (hd : d i = NFloat.inf) : crowd_col v d i = NFloat.inf := by
  rw [crowd_col_cons v d first rest h]
  apply foldl_triples_inf _ _ hr
  by_cases h1 : i = (first :: rest).getLast (List.cons_ne_nil _ _)
  · rw [h1, Function.update_same]
  · rw [Function.update_noteq h1]
    by_cases h2 : i = first
    · rw [h2, Function.update_same]
    · rw [Function.update_noteq h2]
      exact hd

lemma range_ne_of_ne {N : ℕ} (v : Fin N → ℚ) (first : Fin N) (rest : List (Fin N))
    (h : np_argsort v = first :: rest) (hab : ∃ a b : Fin N, v a ≠ v b) :
    v ((first :: rest).getLast (List.cons_ne_nil _ _)) - v first ≠ 0 := by
  obtain ⟨a, b, hab⟩ := hab
  have hs : (first :: rest).Sorted (fun i j => v i ≤ v j) := by
    have := np_argsort_sorted v
    rwa [h] at this
  have hma : a ∈ first :: rest := by
    have := np_argsort_mem v a
    rwa [h] at this
  have hmb : b ∈ first :: rest := by
    have := np_argsort_mem v b
    rwa [h] at this
  have h1 := sorted_head_le hs a hma
  have h2 := sorted_head_le hs b hmb
  have h3 := sorted_le_getLast hs (List.cons_ne_nil _ _) a hma
  have h4 := sorted_le_getLast hs (List.cons_ne_nil _ _) b hmb
  intro hc
  exact hab (by linarith)

lemma foldl_cols_pres {N M : ℕ} (P : Fin N → Fin M → ℚ) (i : Fin N) :
    ∀ (l : List (Fin M)) (d : Fin N → NFloat),
      (∀ m ∈ l, ∀ dd : Fin N → NFloat, dd i = NFloat.inf →
        crowd_col (fun j => P j m) dd i = NFloat.inf) →
      d i = NFloat.inf →
      (l.foldl (fun d m => crowd_col (fun j => P j m) d) d) i = NFloat.inf := by
  intro l
  induction l with
  | nil => intro d _ hd; exact hd
  | cons m ms ih =>
    intro d h hd
    rw [List.foldl_cons]
    exact ih _ (fun m' hm' => h m' (List.mem_cons_of_mem m hm'))
      (h m (List.mem_cons_self m ms) d hd)

/-- C6 (amended): for a matrix with at least 2 rows and at least one
objective column, an individual that is strictly below (resp. strictly above)
all others in some column — a uniquely attained minimum or maximum — receives
`+inf`, provided no objective column is degenerate (zero range, which feeds
NaN into interior entries); and for a matrix of exactly 2 individuals both
always receive `+inf`.  (With tied extremes only the tied individual first in
the stable sort order is treated as a boundary, see the counterexample.) -/
theorem calculate_crowding_distance_boundary_inf {N M : ℕ} (P : Fin N → Fin M → ℚ)
    (hN : 2 ≤ N) (hM : 1 ≤ M) :
    ((∀ m : Fin M, ∃ a b : Fin N, P a m ≠ P b m) →
      ∀ i : Fin N,
        (∃ m : Fin M, (∀ j : Fin N, j ≠ i → P i m < P j m) ∨
          (∀ j : Fin N, j ≠ i → P j m < P i m)) →
        calculate_crowding_distance P i = NFloat.inf) ∧
    (N = 2 → ∀ i : Fin N, calculate_crowding_distance P i = NFloat.inf) := by
  constructor
  · rintro hr i ⟨m, hm⟩
    obtain ⟨first, rest, h⟩ := np_argsort_cons (fun j => P j m) (by omega)
    have hsort : (first :: rest).Sorted
        (fun a b => (fun j => P j m) a ≤ (fun j => P j m) b) := by
      have := np_argsort_sorted (fun j => P j m)
      rwa [h] at this
    have hmemi : i ∈ first :: rest := by
      have := np_argsort_mem (fun j => P j m) i
      rwa [h] at this
    have hboundary : i = first ∨
        i = (first :: rest).getLast (List.cons_ne_nil _ _) := by
      rcases hm with hmin | hmax
      · left
        by_cases hfi : first = i
        · exact hfi.symm
        · exact absurd (sorted_head_le hsort i hmemi)
            (not_le.mpr (hmin first hfi))
      · right
        by_cases hli : (first :: rest).getLast (List.cons_ne_nil _ _) = i
        · exact hli.symm
        · exact absurd (sorted_le_getLast hsort (List.cons_ne_nil _ _) i hmemi)
            (not_le.mpr (hmax _ hli))
    obtain ⟨l1, l2, hsplit⟩ := List.append_of_mem (List.mem_finRange m)
    rw [calculate_crowding_distance, hsplit, List.foldl_append, List.foldl_cons]
    apply foldl_cols_pres P i l2
    · intro m' _ dd hdd
      obtain ⟨f', r', h'⟩ := np_argsort_cons (fun j => P j m') (by omega)
      exact crowd_col_pres _ _ _ _ _ h' (range_ne_of_ne _ _ _ h' (hr m')) hdd
    · exact crowd_col_force _ _ _ _ _ h hboundary
  · intro hN2 i
    subst hN2
    have hforce : ∀ (m' : Fin M) (d : Fin 2 → NFloat),
        crowd_col (fun j => P j m') d i = NFloat.inf := by
      intro m' d
      have hlen := np_argsort_length (fun j => P j m')
      cases h' : np_argsort (fun j => P j m') with
      | nil => rw [h'] at hlen; simp at hlen
      | cons a t =>
        cases t with
        | nil => rw [h'] at hlen; simp at hlen
        | cons b t2 =>
          cases t2 with
          | nil =>
            have hmem : i ∈ [a, b] := by
              have := np_argsort_mem (fun j => P j m') i
              rwa [h'] at this
            apply crowd_col_force _ _ _ _ _ h'
            rcases List.mem_cons.mp hmem with rfl | hmem
            · exact Or.inl rfl
            · rcases List.mem_cons.mp hmem with rfl | hmem
              · exact Or.inr rfl
              · simp at hmem
          | cons c t3 => rw [h'] at hlen; simp at hlen
    obtain ⟨c, cs, hfr⟩ : ∃ c cs, List.finRange M = c :: cs := by
      cases hfm : List.finRange M with
      | nil =>
        have := List.length_finRange M
        rw [hfm] at this
        simp at this
        omega
      | cons c cs => exact ⟨c, cs, rfl⟩
    rw [calculate_crowding_distance, hfr, List.foldl_cons]
    exact foldl_cols_pres P i cs _ (fun m' _ dd hdd => hforce m' dd)
      (hforce c _)

/-- Witness for C6 (amended): in the 3×2 matrix with rows (0,5), (1,6), (2,7)
individual 0 uniquely attains the minimum of column 0 and gets `+inf`. -/
theorem calculate_crowding_distance_boundary_inf_witness :
    calculate_crowding_distance
      (![![0, 5], ![1, 6], ![2, 7]] : Fin 3 → Fin 2 → ℚ) 0 = NFloat.inf :=
  (calculate_crowding_distance_boundary_inf ![![0, 5], ![1, 6], ![2, 7]]
    (by decide) (by decide)).1
    (by decide) 0 ⟨0, Or.inl (by decide)⟩

/-- C6 is false as stated: in the 3×1 objective matrix with column (0, 0, 1),
individual 1 attains the minimum of the only objective column, yet its
crowding distance is the finite value 1, not `+inf`: only the tied minimal
individual that comes first in the sort order is treated as a boundary. -/
theorem calculate_crowding_distance_tied_min_counterexample :
    (∀ j : Fin 3,
      (![![0], ![0], ![1]] : Fin 3 → Fin 1 → ℚ) 1 0 ≤ ![![0], ![0], ![1]] j 0) ∧
    calculate_crowding_distance (![![0], ![0], ![1]] : Fin 3 → Fin 1 → ℚ) 1
      = NFloat.fin 1 := by
  constructor
  · decide
  · have hfin : List.finRange 1 = [0] := by decide
    have hsort : np_argsort
        (fun i : Fin 3 => (![![0], ![0], ![1]] : Fin 3 → Fin 1 → ℚ) i 0)
        = [0, 1, 2] := by decide
    rw [calculate_crowding_distance, hfin, List.foldl_cons, List.foldl_nil,
      crowd_col_cons _ _ _ _ hsort]
    have htr : listTriples [(0 : Fin 3), 1, 2] = [(0, 1, 2)] := by decide
    rw [htr, List.foldl_cons, List.foldl_nil]
    norm_num [Function.update, np_div_fin, NFloat.add, Fin.ext_iff]

/-- C2 (failing behaviour of the code): on the 3×1 objective matrix with all
values equal — the only objective column has zero range — the increment
computation divides `0.0` by `0.0`, so `calculate_crowding_distance` returns
NaN for the interior individual instead of applying any defined zero-range
policy. -/
theorem calculate_crowding_distance_zero_range_nan :
    calculate_crowding_distance (![![1], ![1], ![1]] : Fin 3 → Fin 1 → ℚ) 1
      = NFloat.nan := by
  have hfin : List.finRange 1 = [0] := by decide
  have hsort : np_argsort
      (fun i : Fin 3 => (![![1], ![1], ![1]] : Fin 3 → Fin 1 → ℚ) i 0)
      = [0, 1, 2] := by decide
  rw [calculate_crowding_distance, hfin, List.foldl_cons, List.foldl_nil,
    crowd_col_cons _ _ _ _ hsort]
  have htr : listTriples [(0 : Fin 3), 1, 2] = [(0, 1, 2)] := by decide
  rw [htr, List.foldl_cons, List.foldl_nil]
  norm_num [Function.update, np_div_fin, NFloat.add, Fin.ext_iff,
    Matrix.vecHead, Matrix.vecTail]

/-! ## Non-dominated sorting

`assign_fronts(p_obj)` (Deb fast non-dominated sort): a pairwise pass builds,
for each individual `p`, the set `S[p]` of individuals it dominates and the
"dominated-by" counter `n[p]`; front 1 is everyone with a zero counter.  Then,
repeatedly, every member of the current front decrements the counters of the
individuals in its `S` set, and the individuals whose counter reaches zero in
that pass form the next front; the loop stops on an empty next front.  The
returned `dict` has consecutive keys `1, 2, ...`, modelled positionally as a
`List (Finset (Fin N))` (entry `j` is the front with key `j+1`); the loop is
given fuel `N`, enough for the at most `N` nonempty fronts.  Since Python set
iteration order is unspecified and the per-pass decrements commute, the pass
is embedded by its order-independent effect: the counter of `q` drops by the
number of current-front members whose `S` set contains `q`, and `q` joins the
next front iff its counter reached zero and it was decremented at all. -/

def S_set {N M : ℕ} (P : Fin N → Fin M → ℚ) (p : Fin N) : Finset (Fin N) :=
  Finset.univ.filter fun q => p ≠ q ∧ pareto_dominance (P p) (P q)

/-- The set of individuals dominating `q` (distinct indices `p` with
`pareto_dominance(P p, P q)`); its cardinality is the initial "dominated-by"
counter `n[q]` accumulated by the pairwise pass. -/
def dominatorsF {N M : ℕ} (P : Fin N → Fin M → ℚ) (q : Fin N) : Finset (Fin N) :=
  Finset.univ.filter fun p => p ≠ q ∧ pareto_dominance (P p) (P q)

def n_init {N M : ℕ} (P : Fin N → Fin M → ℚ) (q : Fin N) : ℕ :=
  (dominatorsF P q).card

def F1 {N M : ℕ} (P : Fin N → Fin M → ℚ) : Finset (Fin N) :=
  Finset.univ.filter fun q => n_init P q = 0

/-- The counters after one pass over the current front `L`: each member of
`L` decrements the counter of everyone in its `S` set, so the counter of `q`
drops by the number of members of `L` whose `S` set contains `q`. -/
def decr {N M : ℕ} (P : Fin N → Fin M → ℚ) (n : Fin N → ℕ) (L : Finset (Fin N)) :
    Fin N → ℕ :=
  fun q => n q - (L.filter fun p => q ∈ S_set P p).card

/-- The next front `Q` collected during the pass over `L`: the individuals
whose counter reaches zero while being decremented. -/
def next_front {N M : ℕ} (P : Fin N → Fin M → ℚ) (n : Fin N → ℕ)
    (L : Finset (Fin N)) : Finset (Fin N) :=
  Finset.univ.filter fun q =>
    decr P n L q = 0 ∧ (L.filter fun p => q ∈ S_set P p) ≠ ∅

def front_loop {N M : ℕ} (P : Fin N → Fin M → ℚ) :
    ℕ → (Fin N → ℕ) → Finset (Fin N) → List (Finset (Fin N))
  | 0, _, _ => []
  | fuel + 1, n, L =>
    if L = ∅ then []
    else if next_front P n L = ∅ then []
    else next_front P n L :: front_loop P fuel (decr P n L) (next_front P n L)

def assign_fronts {N M : ℕ} (P : Fin N → Fin M → ℚ) : List (Finset (Fin N)) :=
  F1 P :: front_loop P N (fun q => n_init P q) (F1 P)

/-! Specification-side development for `assign_fronts`: `domD P s` is the set
of individuals all of whose dominators lie in `s`; its iterates from `∅` are
the unions of the first `k` fronts, and `frontAt P k` is front `k`. -/

def domD {N M : ℕ} (P : Fin N → Fin M → ℚ) (s : Finset (Fin N)) : Finset (Fin N) :=
  Finset.univ.filter fun q => dominatorsF P q ⊆ s

def placed {N M : ℕ} (P : Fin N → Fin M → ℚ) : ℕ → Finset (Fin N)
  | 0 => ∅
  | k + 1 => domD P (placed P k)

def frontAt {N M : ℕ} (P : Fin N → Fin M → ℚ) (k : ℕ) : Finset (Fin N) :=
  placed P k \ placed P (k - 1)

lemma mem_domD {N M : ℕ} (P : Fin N → Fin M → ℚ) (s : Finset (Fin N)) (q : Fin N) :
    q ∈ domD P s ↔ dominatorsF P q ⊆ s := by
  simp [domD]

lemma domD_mono {N M : ℕ} (P : Fin N → Fin M → ℚ) {s t : Finset (Fin N)}
    (h : s ⊆ t) : domD P s ⊆ domD P t := by
  intro q hq
  rw [mem_domD] at hq ⊢
  exact hq.trans h

lemma placed_succ {N M : ℕ} (P : Fin N → Fin M → ℚ) (k : ℕ) :
    placed P (k + 1) = domD P (placed P k) := rfl

lemma placed_subset_succ {N M : ℕ} (P : Fin N → Fin M → ℚ) :
    ∀ k, placed P k ⊆ placed P (k + 1) := by
  intro k
  induction k with
  | zero => exact Finset.empty_subset _
  | succ k ih => exact domD_mono P ih

lemma placed_mono {N M : ℕ} (P : Fin N → Fin M → ℚ) {k j : ℕ} (h : k ≤ j) :
    placed P k ⊆ placed P j := by
  induction j with
  | zero => rw [Nat.le_zero.mp h]
  | succ j ih =>
    rcases Nat.lt_or_ge k (j + 1) with hk | hk
    · exact (ih (by omega)).trans (placed_subset_succ P j)
    · rw [Nat.le_antisymm h hk]

lemma dominatorsF_subset_of_mem {N M : ℕ} (P : Fin N → Fin M → ℚ) {p q : Fin N}
    (hp : p ∈ dominatorsF P q) : dominatorsF P p ⊆ dominatorsF P q := by
  rw [dominatorsF, Finset.mem_filter] at hp
  obtain ⟨-, hpq, hdom⟩ := hp
  intro r hr
  rw [dominatorsF, Finset.mem_filter] at hr ⊢
  obtain ⟨-, hrp, hrdom⟩ := hr
  refine ⟨Finset.mem_univ r, ?_, pareto_dominance_trans _ _ _ hrdom hdom⟩
  rintro rfl
  exact pareto_dominance_asymm _ _ hdom hrdom

lemma not_mem_dominatorsF_self {N M : ℕ} (P : Fin N → Fin M → ℚ) (p : Fin N) :
    p ∉ dominatorsF P p := by
  rw [dominatorsF, Finset.mem_filter]
  rintro ⟨-, hne, -⟩
  exact hne rfl

/-- A fixed point of `domD` is the whole index set: in the complement of a
proper fixed point there would be an individual not dominated from inside the
complement (one minimizing the number of its dominators in the complement),
and it would already belong to the fixed point. -/
lemma domD_fixed_eq_univ {N M : ℕ} (P : Fin N → Fin M → ℚ) {s : Finset (Fin N)}
    (hfix : domD P s = s) : s = Finset.univ := by
  by_contra hne
  have hT : (Finset.univ \ s).Nonempty := by
    rw [Finset.sdiff_nonempty]
    intro hsub
    exact hne (Finset.univ_subset_iff.mp hsub)
  obtain ⟨q, hq, hmin⟩ := Finset.exists_min_image (Finset.univ \ s)
    (fun x => (dominatorsF P x ∩ (Finset.univ \ s)).card) hT
  have hempty : dominatorsF P q ∩ (Finset.univ \ s) = ∅ := by
    by_contra hne2
    obtain ⟨p, hp⟩ := Finset.nonempty_iff_ne_empty.mpr hne2
    rw [Finset.mem_inter] at hp
    obtain ⟨hpdom, hpT⟩ := hp
    have hsub : dominatorsF P p ∩ (Finset.univ \ s) ⊆
        dominatorsF P q ∩ (Finset.univ \ s) :=
      Finset.inter_subset_inter_right (dominatorsF_subset_of_mem P hpdom)
    have hssub : dominatorsF P p ∩ (Finset.univ \ s) ⊂
        dominatorsF P q ∩ (Finset.univ \ s) := by
      refine Finset.ssubset_iff_of_subset hsub |>.mpr ⟨p, ?_, ?_⟩
      · exact Finset.mem_inter.mpr ⟨hpdom, hpT⟩
      · intro hc
        exact not_mem_dominatorsF_self P p (Finset.mem_inter.mp hc).1
    exact absurd (hmin p hpT) (not_le.mpr (Finset.card_lt_card hssub))
  have hqin : q ∈ domD P s := by
    rw [mem_domD]
    intro p hp
    by_contra hps
    have : p ∈ dominatorsF P q ∩ (Finset.univ \ s) :=
      Finset.mem_inter.mpr ⟨hp, Finset.mem_sdiff.mpr ⟨Finset.mem_univ p, hps⟩⟩
    rw [hempty] at this
    exact Finset.not_mem_empty p this
  rw [hfix] at hqin
  exact (Finset.mem_sdiff.mp hq).2 hqin

lemma placed_univ_step {N M : ℕ} (P : Fin N → Fin M → ℚ) (k : ℕ)
    (h : placed P k = Finset.univ) : placed P (k + 1) = Finset.univ := by
  rw [placed_succ, h]
  apply Finset.univ_subset_iff.mp
  intro q _
  rw [mem_domD]
  exact Finset.subset_univ _

lemma placed_card_grow {N M : ℕ} (P : Fin N → Fin M → ℚ) :
    ∀ k, placed P k = Finset.univ ∨ k ≤ (placed P k).card
  | 0 => Or.inr (Nat.zero_le _)
  | k + 1 => by
    rcases placed_card_grow P k with h | h
    · exact Or.inl (placed_univ_step P k h)
    · by_cases hfix : placed P (k + 1) = placed P k
      · left
        have := domD_fixed_eq_univ P (s := placed P k) (by rw [← placed_succ, hfix])
        rw [placed_succ, this]
        apply Finset.univ_subset_iff.mp
        intro q _
        rw [mem_domD]
        exact Finset.subset_univ _
      · right
        have hss : placed P k ⊂ placed P (k + 1) :=
          Finset.ssubset_iff_subset_ne.mpr ⟨placed_subset_succ P k, Ne.symm hfix⟩
        have := Finset.card_lt_card hss
        omega

lemma placed_N_univ {N M : ℕ} (P : Fin N → Fin M → ℚ) :
    placed P N = Finset.univ := by
  rcases placed_card_grow P N with h | h
  · exact h
  · have hle : (placed P N).card ≤ N := by
      have := Finset.card_le_univ (placed P N)
      simpa using this
    exact Finset.eq_univ_of_card _ (by simpa using Nat.le_antisymm hle h)

lemma frontAt_succ {N M : ℕ} (P : Fin N → Fin M → ℚ) (k : ℕ) :
    frontAt P (k + 1) = placed P (k + 1) \ placed P k := by
  rw [frontAt, Nat.add_sub_cancel]

lemma filter_S_eq_inter {N M : ℕ} (P : Fin N → Fin M → ℚ) (L : Finset (Fin N))
    (q : Fin N) :
    (L.filter fun p => q ∈ S_set P p) = dominatorsF P q ∩ L := by
  ext p
  simp only [Finset.mem_filter, Finset.mem_inter, S_set, dominatorsF,
    Finset.mem_univ, true_and]
  tauto

lemma card_sdiff_inter_step {N : ℕ} (A B C : Finset (Fin N)) (hBC : B ⊆ C) :
    (A \ B).card - (A ∩ (C \ B)).card = (A \ C).card := by
  have hsub : A ∩ (C \ B) ⊆ A \ B := by
    intro x hx
    rw [Finset.mem_inter, Finset.mem_sdiff] at hx
    exact Finset.mem_sdiff.mpr ⟨hx.1, hx.2.2⟩
  rw [← Finset.card_sdiff hsub]
  congr 1
  ext x
  simp only [Finset.mem_sdiff, Finset.mem_inter]
  constructor
  · rintro ⟨⟨hA, hB⟩, hn⟩
    exact ⟨hA, fun hC => hn ⟨hA, hC, hB⟩⟩
  · rintro ⟨hA, hC⟩
    exact ⟨⟨hA, fun hB => hC (hBC hB)⟩, fun hx => hC hx.2.1⟩

lemma decr_eq {N M : ℕ} (P : Fin N → Fin M → ℚ) (k : ℕ) (n : Fin N → ℕ)
    (hn : ∀ q, n q = (dominatorsF P q \ placed P k).card) (q : Fin N) :
    decr P n (frontAt P (k + 1)) q = (dominatorsF P q \ placed P (k + 1)).card := by
  rw [decr, hn q, filter_S_eq_inter, frontAt_succ]
  exact card_sdiff_inter_step _ _ _ (placed_subset_succ P k)

lemma next_front_eq {N M : ℕ} (P : Fin N → Fin M → ℚ) (k : ℕ) (n : Fin N → ℕ)
    (hn : ∀ q, n q = (dominatorsF P q \ placed P k).card) :
    next_front P n (frontAt P (k + 1)) = frontAt P (k + 2) := by
  have h2 : frontAt P (k + 2) = placed P (k + 2) \ placed P (k + 1) :=
    frontAt_succ P (k + 1)
  have hpl2 : placed P (k + 2) = domD P (placed P (k + 1)) := placed_succ P (k + 1)
  ext q
  rw [next_front, Finset.mem_filter, decr_eq P k n hn q, filter_S_eq_inter]
  simp only [Finset.mem_univ, true_and, Finset.card_eq_zero,
    Finset.sdiff_eq_empty_iff_subset, ← Finset.nonempty_iff_ne_empty]
  rw [h2, Finset.mem_sdiff, hpl2, mem_domD]
  constructor
  · rintro ⟨hsub, p, hp⟩
    rw [Finset.mem_inter] at hp
    refine ⟨hsub, fun hqk1 => ?_⟩
    have hsubk : dominatorsF P q ⊆ placed P k := by
      rw [placed_succ, mem_domD] at hqk1
      exact hqk1
    have hpfront := hp.2
    rw [frontAt_succ, Finset.mem_sdiff] at hpfront
    exact hpfront.2 (hsubk hp.1)
  · rintro ⟨hsub, hqnot⟩
    refine ⟨hsub, ?_⟩
    by_contra hempty
    rw [Finset.not_nonempty_iff_eq_empty] at hempty
    apply hqnot
    rw [placed_succ, mem_domD]
    intro p hp
    by_contra hpk
    have hpin : p ∈ dominatorsF P q ∩ frontAt P (k + 1) := by
      rw [Finset.mem_inter, frontAt_succ, Finset.mem_sdiff]
      exact ⟨hp, hsub hp, hpk⟩
    rw [hempty] at hpin
    exact Finset.not_mem_empty p hpin

/-- Loop invariant of `front_loop`: called at stage `k+1` (current front
`frontAt P (k+1)`, counters counting dominators outside the first `k` fronts),
it returns exactly the remaining fronts up to the first empty one. -/
lemma front_loop_spec {N M : ℕ} (P : Fin N → Fin M → ℚ) :
    ∀ (fuel k : ℕ) (n : Fin N → ℕ),
      (∀ q, n q = (dominatorsF P q \ placed P k).card) →
      frontAt P (k + 1) ≠ ∅ →
      k + 1 ≤ (placed P (k + 1)).card →
      N < fuel + k + 1 →
      ∃ len, front_loop P fuel n (frontAt P (k + 1))
          = (List.range len).map (fun t => frontAt P (k + 2 + t))
        ∧ frontAt P (k + 2 + len) = ∅
        ∧ ∀ t, t < len → frontAt P (k + 2 + t) ≠ ∅ := by
  intro fuel
  induction fuel with
  | zero =>
    intro k n hn hne hcard hfuel
    exfalso
    have h1 := Finset.card_le_univ (placed P (k + 1))
    rw [Fintype.card_fin] at h1
    omega
  | succ fuel ih =>
    intro k n hn hne hcard hfuel
    rw [front_loop, if_neg hne, next_front_eq P k n hn]
    by_cases hQ : frontAt P (k + 2) = ∅
    · rw [if_pos hQ]
      refine ⟨0, by simp, by simpa using hQ, ?_⟩
      intro t ht
      exact absurd ht (Nat.not_lt_zero t)
    · rw [if_neg hQ]
      have hdecr : ∀ q, decr P n (frontAt P (k + 1)) q
          = (dominatorsF P q \ placed P (k + 1)).card := decr_eq P k n hn
      have hcard2 : k + 2 ≤ (placed P (k + 2)).card := by
        obtain ⟨x, hx⟩ := Finset.nonempty_iff_ne_empty.mpr hQ
        have hx2 : x ∈ placed P (k + 2) \ placed P (k + 1) := by
          rwa [← frontAt_succ P (k + 1)]
        rw [Finset.mem_sdiff] at hx2
        have hss : placed P (k + 1) ⊂ placed P (k + 2) :=
          (Finset.ssubset_iff_of_subset (placed_subset_succ P (k + 1))).mpr
            ⟨x, hx2.1, hx2.2⟩
        have := Finset.card_lt_card hss
        omega
      have hfuel2 : N < fuel + (k + 1) + 1 := by omega
      have hRES : ∃ len, front_loop P fuel (decr P n (frontAt P (k + 1)))
            (frontAt P (k + 2))
          = (List.range len).map (fun t => frontAt P (k + 3 + t))
        ∧ frontAt P (k + 3 + len) = ∅
        ∧ ∀ t, t < len → frontAt P (k + 3 + t) ≠ ∅ :=
        ih (k + 1) (decr P n (frontAt P (k + 1))) hdecr hQ hcard2 hfuel2
      obtain ⟨len, hres, hstop, hnon⟩ := hRES
      refine ⟨len + 1, ?_, ?_, ?_⟩
      · rw [List.range_succ_eq_map, List.map_cons, List.map_map, hres]
        congr 1
        · have hcomp : ((fun t => frontAt P (k + 2 + t)) ∘ Nat.succ)
              = (fun t => frontAt P (k + 3 + t)) := by
            funext t
            simp only [Function.comp_apply]
            congr 1
            omega
          rw [hcomp]
      · have harith : k + 2 + (len + 1) = k + 3 + len := by omega
        rw [harith]
        exact hstop
      · intro t ht
        cases t with
        | zero => simpa using hQ
        | succ t2 =>
          have harith : k + 2 + (t2 + 1) = k + 3 + t2 := by omega
          rw [harith]
          exact hnon t2 (by omega)

lemma frontAt_one {N M : ℕ} (P : Fin N → Fin M → ℚ) :
    frontAt P 1 = domD P ∅ := by
  show placed P 1 \ placed P 0 = domD P ∅
  rw [placed_succ]
  exact Finset.sdiff_empty

lemma F1_eq_frontAt_one {N M : ℕ} (P : Fin N → Fin M → ℚ) :
    F1 P = frontAt P 1 := by
  rw [frontAt_one]
  ext q
  rw [F1, Finset.mem_filter, mem_domD]
  simp [n_init, Finset.card_eq_zero, Finset.subset_empty]

lemma assign_fronts_spec {N M : ℕ} (P : Fin N → Fin M → ℚ) (hN : 1 ≤ N) :
    ∃ len, assign_fronts P = (List.range (len + 1)).map (fun t => frontAt P (1 + t))
      ∧ placed P (1 + len) = Finset.univ
      ∧ ∀ t, t < len + 1 → frontAt P (1 + t) ≠ ∅ := by
  have hF1ne : frontAt P 1 ≠ ∅ := by
    rw [frontAt_one]
    intro hc
    have huniv := domD_fixed_eq_univ P (s := (∅ : Finset (Fin N))) hc
    have hcard : (Finset.univ : Finset (Fin N)).card = 0 := by
      rw [← huniv]
      simp
    rw [Finset.card_univ, Fintype.card_fin] at hcard
    omega
  have hcard1 : 1 ≤ (placed P 1).card := by
    obtain ⟨x, hx⟩ := Finset.nonempty_iff_ne_empty.mpr hF1ne
    have hx1 : x ∈ placed P 1 \ placed P 0 := hx
    rw [Finset.mem_sdiff] at hx1
    exact Finset.card_pos.mpr ⟨x, hx1.1⟩
  have hinv : ∀ q, n_init P q = (dominatorsF P q \ placed P 0).card := by
    intro q
    show n_init P q = (dominatorsF P q \ ∅).card
    rw [Finset.sdiff_empty, n_init]
  obtain ⟨len, hloop, hstop, hnon⟩ :=
    front_loop_spec P N 0 (fun q => n_init P q) hinv hF1ne hcard1 (by omega)
  refine ⟨len, ?_, ?_, ?_⟩
  · rw [assign_fronts, F1_eq_frontAt_one]
    have hloop1 : front_loop P N (fun q => n_init P q) (frontAt P 1)
        = (List.range len).map (fun t => frontAt P (2 + t)) := hloop
    rw [hloop1, List.range_succ_eq_map, List.map_cons, List.map_map]
    congr 1
    · have hcomp : ((fun t => frontAt P (1 + t)) ∘ Nat.succ)
          = (fun t => frontAt P (2 + t)) := by
        funext t
        simp only [Function.comp_apply]
        congr 1
        omega
      rw [hcomp]
  · have hstop1 : frontAt P (1 + len + 1) = ∅ := by
      have harith : 0 + 2 + len = 1 + len + 1 := by omega
      rwa [harith] at hstop
    rw [frontAt_succ, Finset.sdiff_eq_empty_iff_subset] at hstop1
    have heq : placed P (1 + len + 1) = placed P (1 + len) :=
      Finset.Subset.antisymm hstop1 (placed_subset_succ P (1 + len))
    exact domD_fixed_eq_univ P (by rw [← placed_succ]; exact heq)
  · intro t ht
    cases t with
    | zero => simpa using hF1ne
    | succ t2 =>
      have harith : 1 + (t2 + 1) = 0 + 2 + t2 := by omega
      rw [harith]
      exact hnon t2 (by omega)

lemma frontAt_mem_unique {N M : ℕ} (P : Fin N → Fin M → ℚ) {q : Fin N} {a b : ℕ}
    (ha : q ∈ frontAt P (a + 1)) (hb : q ∈ frontAt P (b + 1)) : a = b := by
  rcases lt_trichotomy a b with h | h | h
  · exfalso
    rw [frontAt_succ, Finset.mem_sdiff] at ha hb
    exact hb.2 (placed_mono P (by omega) ha.1)
  · exact h
  · exfalso
    rw [frontAt_succ, Finset.mem_sdiff] at ha hb
    exact ha.2 (placed_mono P (by omega) hb.1)

/-- C1: for every N×M objective matrix, `assign_fronts` partitions the index
set — every index lies in exactly one front of the returned list (whose
positions are the contiguous dict keys 1, 2, ...); no individual of a front
is dominated by another individual of the same front (so front 1 members are
pairwise non-dominated); a dominator of an individual always lies in a
strictly earlier front; and (for a nonempty population) every listed front is
nonempty.  This covers pathological inputs such as all rows identical. -/
theorem assign_fronts_partition {N M : ℕ} (P : Fin N → Fin M → ℚ) :
    (∀ q : Fin N, ∃! j : Fin (assign_fronts P).length, q ∈ (assign_fronts P).get j) ∧
    (∀ j : Fin (assign_fronts P).length, ∀ p q : Fin N,
      p ∈ (assign_fronts P).get j → q ∈ (assign_fronts P).get j →
      ¬ pareto_dominance (P p) (P q) = true) ∧
    (∀ jp jq : Fin (assign_fronts P).length, ∀ p q : Fin N,
      p ∈ (assign_fronts P).get jp → q ∈ (assign_fronts P).get jq →
      pareto_dominance (P p) (P q) = true → (jp : ℕ) < (jq : ℕ)) ∧
    (1 ≤ N → ∀ j : Fin (assign_fronts P).length,
      ((assign_fronts P).get j).Nonempty) := by
  rcases Nat.eq_zero_or_pos N with hN0 | hN
  · subst hN0
    exact ⟨fun q => q.elim0, fun j p => p.elim0, fun jp jq p => p.elim0,
      fun h1 => absurd h1 (by omega)⟩
  · obtain ⟨len, hrep, huniv, hnon⟩ := assign_fronts_spec P hN
    have hlen : (assign_fronts P).length = len + 1 := by
      rw [hrep]
      simp
    have horder : ∀ a b : ℕ, ∀ p q : Fin N,
        p ∈ frontAt P (1 + a) → q ∈ frontAt P (1 + b) →
        pareto_dominance (P p) (P q) = true → a < b := by
      intro a b p q hp hq hdom
      have hpq : p ≠ q := by
        rintro rfl
        exact pareto_dominance_irrefl _ hdom
      have hpdom : p ∈ dominatorsF P q := by
        rw [dominatorsF, Finset.mem_filter]
        exact ⟨Finset.mem_univ p, hpq, hdom⟩
      have hq1 : q ∈ placed P (b + 1) := by
        rw [Nat.add_comm 1 b, frontAt_succ, Finset.mem_sdiff] at hq
        exact hq.1
      have hsubq : dominatorsF P q ⊆ placed P b := by
        rw [placed_succ, mem_domD] at hq1
        exact hq1
      have hpnot : p ∉ placed P a := by
        rw [Nat.add_comm 1 a, frontAt_succ, Finset.mem_sdiff] at hp
        exact hp.2
      by_contra hle
      exact hpnot (placed_mono P (by omega) (hsubq hpdom))
    simp only [hrep, List.get_eq_getElem, List.length_map, List.length_range,
      List.getElem_map, List.getElem_range]
    refine ⟨?_, ?_, ?_, ?_⟩
    · intro q
      have hqin : q ∈ placed P (1 + len) := by
        rw [huniv]
        exact Finset.mem_univ q
      have hex : ∃ t, q ∈ placed P (1 + t) := ⟨len, hqin⟩
      have ht0 : q ∈ placed P (1 + Nat.find hex) := Nat.find_spec hex
      have ht0le : Nat.find hex ≤ len := Nat.find_min' hex hqin
      have hnotprev : q ∉ placed P (Nat.find hex) := by
        cases hfind : Nat.find hex with
        | zero => exact Finset.not_mem_empty q
        | succ t2 =>
          have hmin := Nat.find_min hex (m := t2) (by omega)
          intro hc
          apply hmin
          rwa [Nat.add_comm 1 t2]
      have hqfront : q ∈ frontAt P (1 + Nat.find hex) := by
        rw [Nat.add_comm 1 (Nat.find hex), frontAt_succ, Finset.mem_sdiff]
        exact ⟨by rwa [Nat.add_comm], hnotprev⟩
      refine ⟨⟨Nat.find hex, by omega⟩, hqfront, ?_⟩
      intro j2 hj2
      apply Fin.ext
      show (j2 : ℕ) = Nat.find hex
      have h1 : q ∈ frontAt P ((j2 : ℕ) + 1) := by
        rwa [Nat.add_comm 1 (j2 : ℕ)] at hj2
      have h2 : q ∈ frontAt P (Nat.find hex + 1) := by
        rwa [Nat.add_comm 1 (Nat.find hex)] at hqfront
      exact frontAt_mem_unique P h1 h2
    · intro j p q hp hq hdom
      exact absurd (horder (j : ℕ) (j : ℕ) p q hp hq hdom) (lt_irrefl _)
    · intro jp jq p q hp hq hdom
      exact horder (jp : ℕ) (jq : ℕ) p q hp hq hdom
    · intro _ j
      rw [Finset.nonempty_iff_ne_empty]
      apply hnon
      have := j.isLt
      omega

/-- Witness for C1 at the 2×1 matrix with rows (0) and (1): the fronts are
nonempty, and index 0 lies in exactly one front. -/
theorem assign_fronts_partition_witness :
    (∃! j : Fin (assign_fronts (![![0], ![1]] : Fin 2 → Fin 1 → ℚ)).length,
      (0 : Fin 2) ∈ (assign_fronts (![![0], ![1]] : Fin 2 → Fin 1 → ℚ)).get j) ∧
    (∀ j : Fin (assign_fronts (![![0], ![1]] : Fin 2 → Fin 1 → ℚ)).length,
      ((assign_fronts (![![0], ![1]] : Fin 2 → Fin 1 → ℚ)).get j).Nonempty) :=
  ⟨(assign_fronts_partition ![![0], ![1]]).1 0,
    (assign_fronts_partition ![![0], ![1]]).2.2.2 (by decide)⟩

/-! ## Variation operators

`sbx_crossover` and `polynomial_mutation` use real powers
`base ** (1 / (eta + 1))`, so they are modelled over `ℝ` with `Real.rpow`
(hence `noncomputable`); the per-variable uniform draws `np.random.uniform`
are embedded as an explicit argument `u`. -/

/-- `np.clip(a, lower, upper)` (equivalently
`np.minimum(np.maximum(a, lower), upper)`). -/
def np_clip (a lower upper : ℝ) : ℝ := min (max a lower) upper

noncomputable def polynomial_mutation {D : ℕ} (x : Fin D → ℝ) (lower upper : ℝ)
    (eta : ℕ) (u : Fin D → ℝ) : Fin D → ℝ := fun i =>
  let exponent : ℝ := 1 / (1 + (eta : ℝ))
  let delta : ℝ :=
    if u i < 0.5 then (2 * u i) ^ exponent - 1 else 1 - (2 * (1 - u i)) ^ exponent
  np_clip (x i + delta * (upper - lower)) lower upper

/-- C4: whenever `lower ≤ upper`, every element of the array returned by
`polynomial_mutation` lies within the inclusive bounds, for every input
vector and every outcome of the per-variable uniform draw (in particular when
the raw perturbed value `x + δ·(upper−lower)` exceeds the bounds). -/
theorem polynomial_mutation_in_bounds {D : ℕ} (x : Fin D → ℝ) (lower upper : ℝ)
    (eta : ℕ) (u : Fin D → ℝ) (h : lower ≤ upper) :
    ∀ i, lower ≤ polynomial_mutation x lower upper eta u i ∧
      polynomial_mutation x lower upper eta u i ≤ upper := by
  intro i
  simp only [polynomial_mutation, np_clip]
  exact ⟨le_min (le_max_right _ _) h, min_le_right _ _⟩

/-- Witness for C4: mutating the out-of-range point 2 with a full-strength
upward draw still lands in the bounds (0, 1). -/
theorem polynomial_mutation_in_bounds_witness :
    (0 : ℝ) ≤ polynomial_mutation (fun _ : Fin 1 => 2) 0 1 5 (fun _ => 1) 0 ∧
    polynomial_mutation (fun _ : Fin 1 => 2) 0 1 5 (fun _ => 1) 0 ≤ 1 :=
  polynomial_mutation_in_bounds (fun _ : Fin 1 => 2) 0 1 5 (fun _ => 1)
    zero_le_one 0

noncomputable def sbx_crossover {D : ℕ} (p1 p2 : Fin D → ℝ) (eta : ℕ)
    (u : Fin D → ℝ) : (Fin D → ℝ) × (Fin D → ℝ) :=
  let beta : Fin D → ℝ := fun i =>
    if u i ≤ 0.5 then (2 * u i) ^ ((1 : ℝ) / ((eta : ℝ) + 1))
    else (1 / (2 * (1 - u i))) ^ ((1 : ℝ) / ((eta : ℝ) + 1))
  (fun i => 0.5 * ((1 + beta i) * p1 i + (1 - beta i) * p2 i),
   fun i => 0.5 * ((1 - beta i) * p1 i + (1 + beta i) * p2 i))

/-- C8: for identical parents, both SBX children equal the parents exactly,
for every distribution index and every outcome of the uniform draws. -/
theorem sbx_crossover_identical_parents {D : ℕ} (p : Fin D → ℝ) (eta : ℕ)
    (u : Fin D → ℝ) : sbx_crossover p p eta u = (p, p) := by
  simp only [sbx_crossover, Prod.mk.injEq]
  constructor <;> (funext i; ring)

/-- The spread factor reached by the draw `u = 1 - 2⁻²²` at `eta = 20`:
`(1/(2(1-u)))^(1/21) = (2²¹)^(1/21) = 2`. -/
lemma sbx_beta_value :
    ((1 : ℝ) / (2 * (1 - (1 - 1 / 2 ^ 22)))) ^ ((1 : ℝ) / (((20 : ℕ) : ℝ) + 1))
      = 2 := by
  have h1 : ((1 : ℝ) / (2 * (1 - (1 - 1 / 2 ^ 22)))) = 2 ^ (21 : ℕ) := by
    norm_num
  have h2 : ((1 : ℝ) / (((20 : ℕ) : ℝ) + 1)) = ((21 : ℕ) : ℝ)⁻¹ := by
    norm_num
  rw [h1, h2]
  exact Real.pow_rpow_inv_natCast (by norm_num) (by norm_num)

lemma sbx_c1_eval (p1 p2 : Fin 1 → ℝ) (h1 : p1 0 = 0) (h2 : p2 0 = 1) :
    (sbx_crossover p1 p2 20 (fun _ => 1 - 1 / 2 ^ 22)).1 0 = -(1 / 2) := by
  simp only [sbx_crossover]
  rw [if_neg (by norm_num), sbx_beta_value, h1, h2]
  norm_num

/-! ## Offspring generation

`generate_offspring` fills a mating pool with `N` tournament winners, then
breeds consecutive pool entries in pairs: with probability `sbx_prob` the
pair is crossed over (roll oracle `cross`), else the parents pass through;
each child is then independently mutated with probability `mutation_prob`
(roll oracle `mrolls`, draws `u_mut`).  Fallible steps return `Option`, with
`none` for a raised exception: each `tournament_select` call starts with
`np.random.choice(N, 2, replace=False)`, which raises `ValueError` when the
population has fewer than 2 individuals (so for `N = 1` the pool build fails
before any entry exists); and the pairing loop `for i in range(0, N, 2)`
reads `mating_pool[i+1]`, which raises `IndexError` when a single element
remains. -/

noncomputable def pair_children {D : ℕ} (lower upper : ℝ) (p1 p2 : Fin D → ℝ)
    (cross : Bool) (u_sbx : Fin D → ℝ) (mut1 mut2 : Bool)
    (u1 u2 : Fin D → ℝ) : (Fin D → ℝ) × (Fin D → ℝ) :=
  let children := if cross then sbx_crossover p1 p2 20 u_sbx else (p1, p2)
  (if mut1 then polynomial_mutation children.1 lower upper 5 u1 else children.1,
   if mut2 then polynomial_mutation children.2 lower upper 5 u2 else children.2)

noncomputable def breed_pairs {D : ℕ} (lower upper : ℝ) (cross : ℕ → Bool)
    (u_sbx : ℕ → Fin D → ℝ) (mrolls : ℕ → Bool × Bool)
    (u_mut : ℕ → (Fin D → ℝ) × (Fin D → ℝ)) :
    ℕ → List (Fin D → ℝ) → Option (List (Fin D → ℝ))
  | _, [] => some []
  | _, [_] => none
  | step, p1 :: p2 :: rest =>
    let c := pair_children lower upper p1 p2 (cross step) (u_sbx step)
      (mrolls step).1 (mrolls step).2 (u_mut step).1 (u_mut step).2
    (breed_pairs lower upper cross u_sbx mrolls u_mut (step + 1) rest).map
      (fun Q => c.1 :: c.2 :: Q)

/-- One iteration of the mating-pool loop body: `tournament_select` first
executes `np.random.choice(N, 2, replace=False)`, which raises `ValueError`
when the population has fewer than 2 individuals — before any winner exists.
For a successful draw the winning index is the oracle `winners t` (the
comparison logic of `tournament_select` is verified separately above); the
iteration appends the winner's decision vector to the pool. -/
noncomputable def tournament_winner {N D : ℕ} (p : Fin N → Fin D → ℝ)
    (winners : ℕ → Fin N) (t : ℕ) : Option (Fin D → ℝ) :=
  if 2 ≤ N then some (p (winners t)) else none

/-- The `while len(mating_pool) < N` loop: append one tournament winner per
iteration, propagating the `ValueError` of a failed draw. -/
noncomputable def build_mating_pool {N D : ℕ} (p : Fin N → Fin D → ℝ)
    (winners : ℕ → Fin N) : ℕ → Option (List (Fin D → ℝ))
  | 0 => some []
  | t + 1 => (build_mating_pool p winners t).bind
      (fun pool => (tournament_winner p winners t).map (fun w => pool ++ [w]))

noncomputable def generate_offspring {N D : ℕ} (p : Fin N → Fin D → ℝ)
    (winners : ℕ → Fin N) (lower upper : ℝ) (cross : ℕ → Bool)
    (u_sbx : ℕ → Fin D → ℝ) (mrolls : ℕ → Bool × Bool)
    (u_mut : ℕ → (Fin D → ℝ) × (Fin D → ℝ)) : Option (List (Fin D → ℝ)) :=
  (build_mating_pool p winners N).bind
    (breed_pairs lower upper cross u_sbx mrolls u_mut 0)

lemma build_mating_pool_success {N D : ℕ} (p : Fin N → Fin D → ℝ)
    (winners : ℕ → Fin N) (hN : 2 ≤ N) :
    ∀ n, build_mating_pool p winners n
      = some ((List.range n).map fun t => p (winners t))
  | 0 => by simp [build_mating_pool]
  | n + 1 => by
    rw [build_mating_pool, build_mating_pool_success p winners hN n]
    simp [tournament_winner, if_pos hN, List.range_succ]

lemma build_mating_pool_small {N D : ℕ} (p : Fin N → Fin D → ℝ)
    (winners : ℕ → Fin N) (hN : N < 2) :
    ∀ n, 1 ≤ n → build_mating_pool p winners n = none := by
  intro n hn
  cases n with
  | zero => omega
  | succ t =>
    rw [build_mating_pool]
    have hfail : ¬ 2 ≤ N := by omega
    cases h : build_mating_pool p winners t with
    | none => rfl
    | some pool => simp [tournament_winner, hfail]

lemma breed_pairs_odd {D : ℕ} (lower upper : ℝ) (cross : ℕ → Bool)
    (u_sbx : ℕ → Fin D → ℝ) (mrolls : ℕ → Bool × Bool)
    (u_mut : ℕ → (Fin D → ℝ) × (Fin D → ℝ)) :
    ∀ (l : List (Fin D → ℝ)), l.length % 2 = 1 → ∀ step,
      breed_pairs lower upper cross u_sbx mrolls u_mut step l = none
  | [], h, _ => by simp at h
  | [_], _, _ => rfl
  | p1 :: p2 :: rest, h, step => by
    have h2 : rest.length % 2 = 1 := by
      simp only [List.length_cons] at h
      omega
    simp only [breed_pairs]
    rw [breed_pairs_odd lower upper cross u_sbx mrolls u_mut rest h2 (step + 1)]
    rfl

/-- C10 is false as stated for N = 1, an odd size the claim covers: the first
`tournament_select` call executes `np.random.choice(1, 2, replace=False)`,
which raises `ValueError` before any pool entry exists, so no mating pool of
exactly N entries is ever filled and the pairing loop's out-of-range read of
`mating_pool[i+1]` is never reached (the run still errors, but earlier and
differently than the claim says). -/
theorem generate_offspring_one_counterexample :
    (¬ ∃ pool : List (Fin 1 → ℝ),
      build_mating_pool (fun _ _ => (0 : ℝ) : Fin 1 → Fin 1 → ℝ) (fun _ => 0) 1
        = some pool) ∧
    build_mating_pool (fun _ _ => (0 : ℝ) : Fin 1 → Fin 1 → ℝ) (fun _ => 0) 1
      = none ∧
    generate_offspring (fun _ _ => (0 : ℝ) : Fin 1 → Fin 1 → ℝ) (fun _ => 0) 0 1
      (fun _ => false) (fun _ _ => 0) (fun _ => (false, false))
      (fun _ => (fun _ => 0, fun _ => 0)) = none := by
  have hnone : build_mating_pool (fun _ _ => (0 : ℝ) : Fin 1 → Fin 1 → ℝ)
      (fun _ => 0) 1 = none :=
    build_mating_pool_small _ _ (by omega) 1 (by omega)
  refine ⟨?_, hnone, ?_⟩
  · rintro ⟨pool, hp⟩
    rw [hnone] at hp
    cases hp
  · rw [generate_offspring, hnone]
    rfl

/-- C10 (amended): for every population of odd size N ≥ 3,
`generate_offspring` fills a mating pool of exactly N entries and then fails
with an index error in the pairing loop (reading `mating_pool[i+1]` at
`i = N-1`); it never returns a padded or truncated offspring population,
whatever the tournament winners and random rolls are.  At N = 1 the failure
happens earlier, in the first selection draw — see the counterexample. -/
theorem generate_offspring_odd_error {N D : ℕ} (hodd : N % 2 = 1) (h3 : 3 ≤ N)
    (p : Fin N → Fin D → ℝ) (winners : ℕ → Fin N) (lower upper : ℝ)
    (cross : ℕ → Bool) (u_sbx : ℕ → Fin D → ℝ) (mrolls : ℕ → Bool × Bool)
    (u_mut : ℕ → (Fin D → ℝ) × (Fin D → ℝ)) :
    (∃ pool, build_mating_pool p winners N = some pool ∧ pool.length = N) ∧
    generate_offspring p winners lower upper cross u_sbx mrolls u_mut = none := by
  have hsucc := build_mating_pool_success p winners (by omega) N
  constructor
  · exact ⟨_, hsucc, by simp⟩
  · rw [generate_offspring, hsucc, Option.some_bind]
    exact breed_pairs_odd lower upper cross u_sbx mrolls u_mut _ (by simpa using hodd) 0

/-- Witness for C10 (amended) at a concrete population of 3 identical
individuals. -/
theorem generate_offspring_odd_error_witness :
    (∃ pool, build_mating_pool (fun _ _ => (0 : ℝ) : Fin 3 → Fin 1 → ℝ)
      (fun _ => 0) 3 = some pool ∧ pool.length = 3) ∧
    generate_offspring (fun _ _ => (0 : ℝ) : Fin 3 → Fin 1 → ℝ) (fun _ => 0) 0 1
      (fun _ => false) (fun _ _ => 0) (fun _ => (false, false))
      (fun _ => (fun _ => 0, fun _ => 0)) = none :=
  generate_offspring_odd_error (by decide) (by decide) (fun _ _ => 0)
    (fun _ => 0) 0 1 (fun _ => false) (fun _ _ => 0) (fun _ => (false, false))
    (fun _ => (fun _ => 0, fun _ => 0))

/-- C7: `sbx_crossover` applies no bounds clipping: there are parents inside
the bounds and a draw for which a child is strictly outside them; and an
offspring of `generate_offspring` that undergoes crossover but skips mutation
can fall outside the bounds (population of 2 in-bound individuals, crossover
roll succeeds, both mutation rolls fail, first child below the lower bound). -/
theorem sbx_crossover_no_clipping :
    (∃ (lower upper : ℝ) (p1 p2 u : Fin 1 → ℝ),
      lower ≤ upper ∧ (∀ i, lower ≤ p1 i ∧ p1 i ≤ upper) ∧
      (∀ i, lower ≤ p2 i ∧ p2 i ≤ upper) ∧
      (sbx_crossover p1 p2 20 u).1 0 < lower) ∧
    (∃ (lower upper : ℝ) (p : Fin 2 → Fin 1 → ℝ) (winners : ℕ → Fin 2)
        (cross : ℕ → Bool) (u_sbx : ℕ → Fin 1 → ℝ) (mrolls : ℕ → Bool × Bool)
        (u_mut : ℕ → (Fin 1 → ℝ) × (Fin 1 → ℝ)) (out : List (Fin 1 → ℝ)),
      lower ≤ upper ∧ (∀ a i, lower ≤ p a i ∧ p a i ≤ upper) ∧
      (∀ s, mrolls s = (false, false)) ∧ cross 0 = true ∧
      generate_offspring p winners lower upper cross u_sbx mrolls u_mut
        = some out ∧
      ∃ v ∈ out, v 0 < lower) := by
  constructor
  · refine ⟨0, 1, fun _ => 0, fun _ => 1, fun _ => 1 - 1 / 2 ^ 22,
      zero_le_one, fun i => ⟨le_refl 0, zero_le_one⟩,
      fun i => ⟨zero_le_one, le_refl 1⟩, ?_⟩
    rw [sbx_c1_eval (fun _ => 0) (fun _ => 1) rfl rfl]
    norm_num
  · refine ⟨0, 1, fun a _ => ((a : ℕ) : ℝ), fun t => if t = 0 then 0 else 1,
      fun _ => true, fun _ _ => 1 - 1 / 2 ^ 22, fun _ => (false, false),
      fun _ => (fun _ => 0, fun _ => 0),
      [(sbx_crossover (fun _ => ((((0 : Fin 2) : ℕ) : ℝ)))
          (fun _ => (((1 : Fin 2) : ℕ) : ℝ)) 20 (fun _ => 1 - 1 / 2 ^ 22)).1,
        (sbx_crossover (fun _ => ((((0 : Fin 2) : ℕ) : ℝ)))
          (fun _ => (((1 : Fin 2) : ℕ) : ℝ)) 20 (fun _ => 1 - 1 / 2 ^ 22)).2],
      zero_le_one, ?_, fun s => rfl, rfl, ?_, ?_⟩
    · intro a i
      constructor
      · positivity
      · show ((a : ℕ) : ℝ) ≤ 1
        have h2 : (a : ℕ) ≤ 1 := by
          have := a.isLt
          omega
        exact_mod_cast h2
    · rw [generate_offspring, build_mating_pool_success _ _ (by omega) 2]
      have hpool : (List.range 2).map
          (fun t => (fun (a : Fin 2) (_ : Fin 1) => ((a : ℕ) : ℝ))
            ((fun t => if t = 0 then (0 : Fin 2) else 1) t))
          = [fun _ => (((0 : Fin 2) : ℕ) : ℝ), fun _ => (((1 : Fin 2) : ℕ) : ℝ)] := by
        rfl
      rw [hpool, Option.some_bind]
      simp only [breed_pairs, pair_children, if_true, Bool.false_eq_true,
        if_false, Option.map_some]
      rfl
    · refine ⟨(sbx_crossover (fun _ => ((((0 : Fin 2) : ℕ) : ℝ)))
          (fun _ => (((1 : Fin 2) : ℕ) : ℝ)) 20 (fun _ => 1 - 1 / 2 ^ 22)).1,
        List.mem_cons_self _ _, ?_⟩
      rw [sbx_c1_eval _ _ (by norm_num) (by norm_num)]
      norm_num

end NSGA2
